import Mathlib

/-!
Shallow embedding of `src/billfinder.py` (WA legislature bill finder).

Documents and URLs are modelled as `List Char`.  The Python regular
expressions used by the extractor are fixed, concrete patterns; each is
translated into a dedicated matcher function that implements the
leftmost-search / greedy-with-backtracking semantics of `re.search` for
that particular pattern.  Character classes (`\d`, `\w`, `\s`) are
modelled at their ASCII meaning, which is what the scraped pages use.

The external collaborators (HTTP fetch, HTML entity unescaping) are
passed in as function parameters: a run of the pipeline is determined by
the assignment of document text to URLs (`fetch`), the per-session
listing results, and the order in which the concurrent extractions
complete (within each session the worker pool completes futures in an
arbitrary order; the aggregation loop is driven by that order).
-/

namespace BillFinder

abbrev Str := List Char

/-- Regex `\d` (ASCII): a decimal digit. -/
def isDigitChar (c : Char) : Bool := c.isDigit

/-- Regex `\w` (ASCII): letter, digit or underscore. -/
def isWordChar (c : Char) : Bool := c.isAlpha || c.isDigit || c = '_'

/-- Regex `\s` (ASCII): space, tab, newline, carriage return, vertical tab, form feed. -/
def isSpaceChar (c : Char) : Bool :=
  c = ' ' || c = '\t' || c = '\n' || c = '\r' || c = '\x0b' || c = '\x0c'

/-- Case folding used for the `re.I` flag (patterns are ASCII). -/
def lowerChar (c : Char) : Char := c.toLower

/-- Match a literal pattern case-insensitively at the head of the input;
return the rest of the input after the pattern. -/
def ciStrip : Str → Str → Option Str
  | [], cs => some cs
  | _ :: _, [] => none
  | p :: ps, c :: cs => if lowerChar c = lowerChar p then ciStrip ps cs else none

/-- Regex `\s+` followed by a pattern whose first character is not
whitespace: one or more whitespace characters, consumed greedily (no
backtracking can help because what follows never starts with whitespace). -/
def spaces1 : Str → Option Str
  | [] => none
  | c :: cs => if isSpaceChar c then some (cs.dropWhile isSpaceChar) else none

/-- `true` when the next position is a `\b` boundary on the right of a word
character, i.e. the rest of the input does not start with a word character. -/
def noWordHead : Str → Bool
  | [] => true
  | c :: _ => !isWordChar c

/-- `true` when the previous character (if any) is not a word character:
the `\b` condition on the left of a pattern that starts with a word character. -/
def noWordBefore : Option Char → Bool
  | none => true
  | some c => !isWordChar c

/-- `re.search` driver for a pattern beginning with `\b` followed by a word
character: try the head matcher at every position, left to right, keeping
track of the previous character for the boundary test. -/
def bsearch (m : Str → Option α) : Option Char → Str → Option α
  | _, [] => none
  | prev, c :: cs =>
    match (if noWordBefore prev then m (c :: cs) else none) with
    | some r => some r
    | none => bsearch m (some c) cs

/-- `re.search` driver for a pattern with no leading boundary test. -/
def psearch (m : Str → Option α) : Str → Option α
  | [] => none
  | c :: cs =>
    match m (c :: cs) with
    | some r => some r
    | none => psearch m cs

/-- Numeric value of a digit character. -/
def digitVal (c : Char) : Nat := c.toNat - 48

/-- Python `int` applied to a string of decimal digits. -/
def digitsToNat (s : Str) : Nat := s.foldl (fun n c => 10 * n + digitVal c) 0

/-! ### YEAR_RE = `\b(20\d{2})\s+(?:Regular|1st|2nd|3rd)\s+Session`, re.I -/

/-- The alternation `(?:Regular|1st|2nd|3rd)`, tried in order; the branches
start with distinct characters, so the first-match choice is the only one. -/
def qualifierStrip (cs : Str) : Option Str :=
  match ciStrip "Regular".toList cs with
  | some r => some r
  | none =>
    match ciStrip "1st".toList cs with
    | some r => some r
    | none =>
      match ciStrip "2nd".toList cs with
      | some r => some r
      | none => ciStrip "3rd".toList cs

/-- `YEAR_RE` minus its leading `\b`, matched at the head of the input;
returns `int(group(1))`. -/
def matchYearAt : Str → Option Nat
  | c2 :: c0 :: d1 :: d2 :: rest =>
    if c2 = '2' && c0 = '0' && isDigitChar d1 && isDigitChar d2 then
      match spaces1 rest with
      | none => none
      | some r1 =>
        match qualifierStrip r1 with
        | none => none
        | some r2 =>
          match spaces1 r2 with
          | none => none
          | some r3 =>
            match ciStrip "Session".toList r3 with
            | none => none
            | some _ => some (2000 + 10 * digitVal d1 + digitVal d2)
    else none
  | _ => none

/-- `year = int(m.group(1)) if YEAR_RE.search(text) else None` (src line 52). -/
def yearSearch (text : Str) : Option Nat := bsearch matchYearAt none text

/-! ### BILLNUM_RE = `\bHOUSE\s+BILL\s+(\d{3,4})\b`, re.I -/

/-- `(\d{3,4})\b`: greedily try four digits then check the boundary, falling
back to three digits; with five or more digits in a row both attempts leave a
digit right after the group, so the match fails. -/
def grabBillNum : Str → Option Str
  | a :: b :: c :: rest =>
    if isDigitChar a && isDigitChar b && isDigitChar c then
      match rest with
      | [] => some [a, b, c]
      | d :: rest2 =>
        if isDigitChar d then
          if noWordHead rest2 then some [a, b, c, d] else none
        else if !isWordChar d then some [a, b, c] else none
    else none
  | _ => none

/-- `BILLNUM_RE` minus its leading `\b`, matched at the head of the input;
returns `group(1)`. -/
def matchBillAt (cs : Str) : Option Str :=
  (ciStrip "HOUSE".toList cs).bind fun r1 =>
  (spaces1 r1).bind fun r2 =>
  (ciStrip "BILL".toList r2).bind fun r3 =>
  (spaces1 r3).bind grabBillNum

/-- `BILLNUM_RE.search(text)` group(1) (src line 57). -/
def billnumSearch (text : Str) : Option Str := bsearch matchBillAt none text

/-! ### Filename fallback: `re.search(r"/(\d{3,4})(?:[-\w]*)\.htm$", url)`
(case sensitive: compiled without flags). -/

/-- Character class `[-\w]`. -/
def isFnameTailChar (c : Char) : Bool := isWordChar c || c = '-'

/-- `(?:[-\w]*)\.htm$` from the current position: because `$` pins the end
and `.` is not in `[-\w]`, this holds exactly when the rest ends in the four
characters `.htm` and everything before them is in `[-\w]`. -/
def suffixHtmOk (w : Str) : Bool :=
  match w.reverse with
  | m :: t :: h :: d :: rest =>
    m = 'm' && t = 't' && h = 'h' && d = '.' && rest.all isFnameTailChar
  | _ => false

/-- The filename pattern matched at the head of the input (which must start
with `/`); greedy `(\d{3,4})` tries four digits before three. -/
def matchFnameAt : Str → Option Str
  | s :: a :: b :: c :: rest =>
    if s = '/' && isDigitChar a && isDigitChar b && isDigitChar c then
      match rest with
      | [] => none
      | d :: rest2 =>
        if isDigitChar d && suffixHtmOk rest2 then some [a, b, c, d]
        else if suffixHtmOk rest then some [a, b, c]
        else none
    else none
  | _ => none

/-- The fallback `re.search` over the URL (src line 62). -/
def fnameSearch (url : Str) : Option Str := psearch matchFnameAt url

/-! ### AN_ACT_RE = `\bAN\s+ACT\s+Relating\s+to[^\n\r]*`, re.I -/

/-- `AN_ACT_RE` minus its leading `\b`, matched at the head of the input;
returns `group(0)`: the matched span of the original text, through the end
of the line. -/
def matchAnActAt (cs : Str) : Option Str :=
  (ciStrip "AN".toList cs).bind fun r1 =>
  (spaces1 r1).bind fun r2 =>
  (ciStrip "ACT".toList r2).bind fun r3 =>
  (spaces1 r3).bind fun r4 =>
  (ciStrip "Relating".toList r4).bind fun r5 =>
  (spaces1 r5).bind fun r6 =>
  (ciStrip "to".toList r6).bind fun r7 =>
  some (cs.take (cs.length - r7.length
        + (r7.takeWhile (fun c => !(c = '\n' || c = '\r'))).length))

/-- `AN_ACT_RE.search(text)` group(0) (src line 68). -/
def anActSearch (text : Str) : Option Str := bsearch matchAnActAt none text

/-! ### KEYWORDS = `[r"\bclimate\b"]`, searched in `text.lower()` with re.I -/

/-- `\bclimate\b` matched at the head (minus the leading `\b`). -/
def matchClimateAt (cs : Str) : Option Unit :=
  (ciStrip "climate".toList cs).bind fun r =>
  if noWordHead r then some () else none

/-- `matched = any(re.search(k, text.lower(), re.I) for k in KEYWORDS)`
(src lines 73-74). -/
def keywordMatched (text : Str) : Bool :=
  (bsearch matchClimateAt none (text.map lowerChar)).isSome

/-! ### The extractor `parse_bill_page` and `bill_summary_url` -/

/-- The dictionary returned by `parse_bill_page` (src lines 76-82). -/
structure Record where
  year : Option Nat
  bill_number : Option Str
  title : Option Str
  matched : Bool
  bill_text_url : Str
deriving DecidableEq, Repr

/-- Python `str.strip()` at its ASCII meaning. -/
def pyStrip (s : Str) : Str :=
  (((s.dropWhile isSpaceChar).reverse).dropWhile isSpaceChar).reverse

/-- `parse_bill_page(url)` (src lines 45-82), as a pure function of the
fetched text.  `unescape` is the external `html.unescape` collaborator. -/
def parse_bill_page (unescape : Str → Str) (url text : Str) : Record :=
  { year := yearSearch text
    bill_number :=
      match billnumSearch text with
      | some b => some b
      | none => fnameSearch url
    title := (anActSearch text).map (fun s => pyStrip (unescape s))
    matched := keywordMatched text
    bill_text_url := url }

/-- Python truthiness of an optional string (`None` and `""` are falsy). -/
def pyTruthyStr : Option Str → Bool
  | none => false
  | some s => !s.isEmpty

/-- Python truthiness of an optional integer (`None` and `0` are falsy). -/
def pyTruthyNat : Option Nat → Bool
  | none => false
  | some n => n != 0

/-- Python `x or d` for an optional string `x`. -/
def pyOrStr (x : Option Str) (d : Str) : Str :=
  match x with
  | some s => if s.isEmpty then d else s
  | none => d

/-- Python `str(n)` for a natural number. -/
def natToStr (n : Nat) : Str := Nat.toDigits 10 n

/-- `bill_summary_url(bill_number, year)` (src lines 84-87). -/
def bill_summary_url (bill_number : Option Str) (year : Option Nat) : Option Str :=
  if !(pyTruthyStr bill_number && pyTruthyNat year) then none
  else some ("https://app.leg.wa.gov/BillSummary/?BillNumber=".toList
             ++ bill_number.getD [] ++ "&Year=".toList
             ++ natToStr (year.getD 0) ++ "&Initiative=false".toList)

/-! ### The aggregation pipeline `main` (src lines 89-147)

The state of the aggregation loop: `seen` is the deduplication set of
`(biennium, year, bill_number)` keys, `rows` the accumulated report rows.
The worker pool only computes `parse_bill_page`; both pieces of state are
touched only by the single loop draining completed futures, so the loop is
modelled as a fold over the URLs in completion order.  `--workers` and
`--delay` affect timing only, not the accumulated data, and do not appear
in the model. -/

/-- One CSV row of the report (src lines 127-134). -/
structure Row where
  biennium : Str
  year : Nat
  bill_number : Str
  title : Str
  bill_text_url : Str
  bill_summary_url : Str
deriving DecidableEq, Repr

/-- A deduplication key `(biennium, y, b)` (src line 120). -/
abbrev Key := Str × Nat × Str

/-- The mutable state of the aggregation loop of `main`. -/
structure PState where
  seen : List Key
  rows : List Row
deriving DecidableEq, Repr

/-- The row appended for a qualifying, unseen record (src lines 125-134). -/
def mkRow (biennium url : Str) (y : Nat) (b : Str) (title : Option Str) : Row :=
  { biennium := biennium
    year := y
    bill_number := 'H' :: 'B' :: ' ' :: b
    title := pyOrStr title []
    bill_text_url := url
    bill_summary_url := pyOrStr (bill_summary_url (some b) (some y)) [] }

/-- The body of the `as_completed` loop (src lines 103-136) for one URL:
fetch failure is logged and skipped; then the qualification chain
(`year`/`bill_number` truthy, `year` in the filter set, `matched`), the
dedup check, and the append. -/
def processOne (unescape : Str → Str) (fetch : Str → Option Str) (years : List Nat)
    (biennium : Str) (st : PState) (url : Str) : PState :=
  match fetch url with
  | none => st
  | some text =>
    let info := parse_bill_page unescape url text
    match info.year, info.bill_number with
    | some y, some b =>
      if y = 0 || b.isEmpty then st
      else if !(years.contains y) then st
      else if !info.matched then st
      else
        let key : Key := (biennium, y, b)
        if st.seen.contains key then st
        else { seen := key :: st.seen,
               rows := st.rows ++ [mkRow biennium url y b info.title] }
    | _, _ => st

/-- One session of the outer loop of `main` (src lines 93-136): a listing
failure (`Except.error`) is logged and the session is skipped; otherwise the
completed extractions are drained in completion order. -/
def processSession (unescape : Str → Str) (fetch : Str → Option Str) (years : List Nat)
    (st : PState) (s : Str × Except Unit (List Str)) : PState :=
  match s.2 with
  | .error _ => st
  | .ok done => done.foldl (processOne unescape fetch years s.1) st

/-- Sort key of the final sort: `(r["year"], int(re.sub(r"\D", "", r["bill_number"])))`
(src line 139). -/
def sortKey (r : Row) : Nat × Nat := (r.year, digitsToNat (r.bill_number.filter isDigitChar))

/-- Lexicographic comparison of sort keys, as Python compares tuples. -/
def keyLe (a b : Nat × Nat) : Bool := a.1 < b.1 || (a.1 = b.1 && a.2 ≤ b.2)

def rowLe (r1 r2 : Row) : Bool := keyLe (sortKey r1) (sortKey r2)

/-- `rowLe` as a decidable relation. -/
def RowLE (r1 r2 : Row) : Prop := rowLe r1 r2 = true

instance : DecidableRel RowLE := fun r1 r2 => instDecidableEqBool (rowLe r1 r2) true

/-- `rows.sort(key=...)` (src line 139): Python's `list.sort` is a stable
sort by the key, and every stable sort by the same key has the same output,
so it is modelled by stable insertion sort. -/
def sortRows (rows : List Row) : List Row := rows.insertionSort RowLE

/-- `main` (src lines 89-147): the rows written to the CSV, in order.  A run
is determined by the collaborators (`unescape`, `fetch`), the year filter,
and per session its biennium label together with either a listing failure or
the list of candidate URLs in the order the concurrent extractions
completed.  (The CSV writer itself serializes these rows one per line after
a fixed header, an external deterministic step.) -/
def mainRows (unescape : Str → Str) (fetch : Str → Option Str) (years : List Nat)
    (sessions : List (Str × Except Unit (List Str))) : List Row :=
  sortRows ((sessions.foldl (processSession unescape fetch years) ⟨[], []⟩).rows)

/-! ### Auxiliary notions used to state and prove the properties -/

/-- The deduplication key a report row accounts for: its biennium, its year,
and its bill number with the `"HB "` prefix removed. -/
def rowKey (r : Row) : Key := (r.biennium, r.year, r.bill_number.drop 3)

/-- The report row a URL contributes when its record passes the whole
qualification chain, and `none` when any condition fails.  `processOne`
is exactly: look the key up in `seen`, then insert/append (see
`processOne_char`). -/
def qualRow (unescape : Str → Str) (fetch : Str → Option Str) (years : List Nat)
    (biennium url : Str) : Option Row :=
  match fetch url with
  | none => none
  | some text =>
    let info := parse_bill_page unescape url text
    match info.year, info.bill_number with
    | some y, some b =>
      if y = 0 || b.isEmpty then none
      else if !(years.contains y) then none
      else if !info.matched then none
      else some (mkRow biennium url y b info.title)
    | _, _ => none

/-- All qualifying report rows a run's input offers, listing order. -/
def allQualRows (unescape : Str → Str) (fetch : Str → Option Str) (years : List Nat)
    (sessions : List (Str × Except Unit (List Str))) : List Row :=
  sessions.flatMap fun s =>
    match s.2 with
    | .error _ => []
    | .ok files => files.filterMap (qualRow unescape fetch years s.1)

/-- Two runs over the same sessions: same biennium, and either both listing
fetches failed or the same candidate URLs completed, in possibly different
orders. -/
def SessionRel (s1 s2 : Str × Except Unit (List Str)) : Prop :=
  s1.1 = s2.1 ∧
    match s1.2, s2.2 with
    | .error _, .error _ => True
    | .ok l1, .ok l2 => l1.Perm l2
    | _, _ => False

/-- Strict comparison of sort keys. -/
def keyLt (a b : Nat × Nat) : Prop := a.1 < b.1 ∨ (a.1 = b.1 ∧ a.2 < b.2)

def RowLT (r1 r2 : Row) : Prop := keyLt (sortKey r1) (sortKey r2)

/-! ### Declarative reading of the year-extraction sentence (for C5)

`YearOccursAt text i y` is modelled from the claim's words: at position `i`
of the text there is an occurrence of a four-digit year 2000–2099 followed
by whitespace and a session-qualifier phrase (one of "Regular", "1st",
"2nd", "3rd", then whitespace and "Session"), matched case-insensitively,
and `y` is the integer value of those four digits. -/

/-- Case-insensitive equality of strings. -/
def ciEq (s t : Str) : Prop := s.map lowerChar = t.map lowerChar

/-- The four session-qualifier words. -/
def qualifierWords : List Str :=
  ["Regular".toList, "1st".toList, "2nd".toList, "3rd".toList]

/-- The claim's pattern matched at the head of `cs`, with value `y`. -/
def YearHead (cs : Str) (y : Nat) : Prop :=
  ∃ d1 d2 s1 q s2 ssn rest,
    cs = '2' :: '0' :: d1 :: d2 :: (s1 ++ q ++ s2 ++ ssn ++ rest) ∧
    isDigitChar d1 = true ∧ isDigitChar d2 = true ∧
    s1 ≠ [] ∧ (∀ c ∈ s1, isSpaceChar c = true) ∧
    (∃ w ∈ qualifierWords, ciEq q w) ∧
    s2 ≠ [] ∧ (∀ c ∈ s2, isSpaceChar c = true) ∧
    ciEq ssn "Session".toList ∧
    y = 2000 + 10 * digitVal d1 + digitVal d2

/-- An occurrence of the claim's pattern at position `i` of the text. -/
def YearOccursAt (text : Str) (i : Nat) (y : Nat) : Prop :=
  YearHead (text.drop i) y

/-- Position `i` is not immediately preceded by a word character
(letter, digit or underscore): the regex's `\b` before the year digits. -/
def NoWordCharBefore (text : Str) (i : Nat) : Prop :=
  i = 0 ∨ ∃ c, text.get? (i - 1) = some c ∧ isWordChar c = false

/-- The character just before position `i` of the text, where `prev` is the
character before position `0` (if any): the boundary context `bsearch`
threads along. -/
def prevAt (prev : Option Char) (cs : Str) : Nat → Option Char
  | 0 => prev
  | i + 1 => cs.get? i

/-! ### Concrete fixtures used to instantiate the properties -/

/-- A small qualifying document: year phrase and keyword, no bill-number
phrase (the identifier comes from the URL), no title phrase. -/
def docA : Str := "2024 1st Session climate".toList

/-- A one-document content assignment. -/
def fetchA : Str → Option Str :=
  fun u => if u = "/123.htm".toList then some docA else none

/-- A single session whose only candidate URL is `docA`'s. -/
def sessA : List (Str × Except Unit (List Str)) :=
  [("23-24".toList, .ok ["/123.htm".toList])]

/-- A text whose only year-pattern occurrence sits right after a letter. -/
def cexYearText : Str := "a2024 Regular Session".toList

/-- Two distinct URLs carrying the same document, both falling back to the
filename number `123`: the same dedup key from different sources. -/
def fetchD : Str → Option Str :=
  fun u => if u = "/123.htm".toList || u = "x/123.htm".toList then some docA else none

/-- Qualifying documents whose identifiers differ only in a leading zero. -/
def docH1 : Str := "2024 1st Session HOUSE BILL 123 climate".toList

def docH2 : Str := "2024 1st Session HOUSE BILL 0123 climate".toList

def fetchE : Str → Option Str :=
  fun u => if u = "u3".toList then some docH1
    else if u = "u4".toList then some docH2 else none

/-- Two qualifying documents with distinct bill numbers. -/
def docJ1 : Str := "2024 1st Session HOUSE BILL 111 climate".toList

def docJ2 : Str := "2024 1st Session HOUSE BILL 222 climate".toList

def fetchJ : Str → Option Str :=
  fun u => if u = "j1".toList then some docJ1
    else if u = "j2".toList then some docJ2 else none

/-! ## Lemmas about the aggregation loop -/

/-- `processOne` in terms of `qualRow`: a non-qualifying URL leaves the
state untouched; a qualifying one is skipped exactly when its key is in the
deduplication set, and otherwise inserts the key and appends its row. -/
theorem processOne_char (u : Str → Str) (f : Str → Option Str) (ys : List Nat)
    (b : Str) (st : PState) (url : Str) :
    processOne u f ys b st url =
      match qualRow u f ys b url with
      | none => st
      | some r =>
        if st.seen.contains (rowKey r) then st
        else ⟨rowKey r :: st.seen, st.rows ++ [r]⟩ := by
  unfold processOne qualRow
  cases hf : f url with
  | none => rfl
  | some text =>
    simp only
    cases hy : (parse_bill_page u url text).year with
    | none => cases hb : (parse_bill_page u url text).bill_number <;> rfl
    | some y =>
      cases hb : (parse_bill_page u url text).bill_number with
      | none => rfl
      | some bn =>
        simp only
        split
        · rfl
        · split
          · rfl
          · split
            · rfl
            · rfl

/-- The deduplication set records exactly the keys of the accumulated rows. -/
def Aligned (st : PState) : Prop :=
  ∀ k, k ∈ st.seen ↔ ∃ r ∈ st.rows, rowKey r = k

theorem aligned_init : Aligned ⟨[], []⟩ := by
  intro k
  simp

theorem contains_iff_mem {α : Type} [BEq α] [LawfulBEq α] (l : List α) (a : α) :
    l.contains a = true ↔ a ∈ l :=
  List.elem_iff

theorem processOne_aligned {u f ys b st url} (h : Aligned st) :
    Aligned (processOne u f ys b st url) := by
  rw [processOne_char]
  cases hq : qualRow u f ys b url with
  | none => exact h
  | some r =>
    simp only
    split
    · exact h
    · intro k
      constructor
      · intro hk
        rcases List.mem_cons.mp hk with rfl | hk
        · exact ⟨r, List.mem_append.mpr (Or.inr (List.mem_singleton.mpr rfl)), rfl⟩
        · obtain ⟨r', hr', hkey⟩ := (h k).mp hk
          exact ⟨r', List.mem_append.mpr (Or.inl hr'), hkey⟩
      · rintro ⟨r', hr', hkey⟩
        rcases List.mem_append.mp hr' with hr' | hr'
        · exact List.mem_cons.mpr (Or.inr ((h k).mpr ⟨r', hr', hkey⟩))
        · rw [List.mem_singleton] at hr'
          subst hr'
          exact List.mem_cons.mpr (Or.inl hkey.symm)

/-- Rows are appended only with a fresh key, so their keys stay pairwise
distinct. -/
theorem processOne_pairwiseKeys {u f ys b st url} (hA : Aligned st)
    (h : st.rows.Pairwise (fun r r' => rowKey r ≠ rowKey r')) :
    (processOne u f ys b st url).rows.Pairwise (fun r r' => rowKey r ≠ rowKey r') := by
  rw [processOne_char]
  cases hq : qualRow u f ys b url with
  | none => exact h
  | some r =>
    simp only
    split
    · exact h
    · rename_i hc
      refine List.pairwise_append.mpr ⟨h, List.pairwise_singleton _ _, ?_⟩
      intro a ha r' hr'
      rw [List.mem_singleton] at hr'
      subst hr'
      intro hkey
      exact hc ((contains_iff_mem _ _).mpr ((hA _).mpr ⟨a, ha, hkey⟩))

/-- Preservation of a per-row property through the loop body. -/
theorem processOne_forall {u f ys b st url} {P : Row → Prop}
    (hP : ∀ r, qualRow u f ys b url = some r → P r)
    (h : ∀ r ∈ st.rows, P r) :
    ∀ r ∈ (processOne u f ys b st url).rows, P r := by
  rw [processOne_char]
  cases hq : qualRow u f ys b url with
  | none => exact h
  | some r0 =>
    simp only
    split
    · exact h
    · intro r hr
      rcases List.mem_append.mp hr with hr | hr
      · exact h r hr
      · rw [List.mem_singleton] at hr
        subst hr
        exact hP r hq

theorem processSession_aligned {u f ys st s} (h : Aligned st) :
    Aligned (processSession u f ys st s) := by
  unfold processSession
  cases s.2 with
  | error e => exact h
  | ok files =>
    induction files generalizing st with
    | nil => exact h
    | cons d ds ih => exact ih (processOne_aligned h)

theorem processSession_pairwiseKeys {u f ys st s} (hA : Aligned st)
    (h : st.rows.Pairwise (fun r r' => rowKey r ≠ rowKey r')) :
    (processSession u f ys st s).rows.Pairwise (fun r r' => rowKey r ≠ rowKey r') := by
  unfold processSession
  cases s.2 with
  | error e => exact h
  | ok files =>
    induction files generalizing st with
    | nil => exact h
    | cons d ds ih => exact ih (processOne_aligned hA) (processOne_pairwiseKeys hA h)

theorem processSession_forall {u f ys st s} {P : Row → Prop}
    (hP : ∀ b url r, qualRow u f ys b url = some r → P r)
    (h : ∀ r ∈ st.rows, P r) :
    ∀ r ∈ (processSession u f ys st s).rows, P r := by
  unfold processSession
  cases s.2 with
  | error e => exact h
  | ok files =>
    induction files generalizing st with
    | nil => exact h
    | cons d ds ih => exact ih (processOne_forall (hP s.1 d) h)

theorem foldSessions_aligned {u : Str → Str} {f : Str → Option Str} {ys : List Nat}
    {sessions : List (Str × Except Unit (List Str))} {st : PState} (h : Aligned st) :
    Aligned (sessions.foldl (processSession u f ys) st) := by
  induction sessions generalizing st with
  | nil => exact h
  | cons s ss ih => exact ih (processSession_aligned h)

theorem foldSessions_pairwiseKeys {u : Str → Str} {f : Str → Option Str} {ys : List Nat}
    {sessions : List (Str × Except Unit (List Str))} {st : PState} (hA : Aligned st)
    (h : st.rows.Pairwise (fun r r' => rowKey r ≠ rowKey r')) :
    (sessions.foldl (processSession u f ys) st).rows.Pairwise
      (fun r r' => rowKey r ≠ rowKey r') := by
  induction sessions generalizing st with
  | nil => exact h
  | cons s ss ih => exact ih (processSession_aligned hA) (processSession_pairwiseKeys hA h)

theorem foldSessions_forall {u : Str → Str} {f : Str → Option Str} {ys : List Nat}
    {sessions : List (Str × Except Unit (List Str))} {st : PState} {P : Row → Prop}
    (hP : ∀ b url r, qualRow u f ys b url = some r → P r)
    (h : ∀ r ∈ st.rows, P r) :
    ∀ r ∈ (sessions.foldl (processSession u f ys) st).rows, P r := by
  induction sessions generalizing st with
  | nil => exact h
  | cons s ss ih => exact ih (processSession_forall hP h)

/-- Rows of the final report all come through the qualification chain. -/
theorem mainRows_forall {u : Str → Str} {f : Str → Option Str} {ys : List Nat}
    {sessions : List (Str × Except Unit (List Str))} {P : Row → Prop}
    (hP : ∀ b url r, qualRow u f ys b url = some r → P r) :
    ∀ r ∈ mainRows u f ys sessions, P r := by
  intro r hr
  unfold mainRows sortRows at hr
  rw [(List.perm_insertionSort RowLE _).mem_iff] at hr
  exact foldSessions_forall hP (by intro r h; cases h) r hr

/-- What a qualifying URL's row looks like. -/
theorem qualRow_some {u : Str → Str} {f : Str → Option Str} {ys : List Nat}
    {b url : Str} {r : Row} (h : qualRow u f ys b url = some r) :
    ∃ text y bn, f url = some text ∧
      (parse_bill_page u url text).year = some y ∧
      (parse_bill_page u url text).bill_number = some bn ∧
      y ≠ 0 ∧ bn ≠ [] ∧ ys.contains y = true ∧
      (parse_bill_page u url text).matched = true ∧
      r = mkRow b url y bn (parse_bill_page u url text).title := by
  unfold qualRow at h
  cases hf : f url with
  | none => rw [hf] at h; cases h
  | some text =>
    rw [hf] at h
    simp only at h
    cases hy : (parse_bill_page u url text).year with
    | none => rw [hy] at h; cases hb : (parse_bill_page u url text).bill_number <;>
        rw [hb] at h <;> cases h
    | some y =>
      cases hb : (parse_bill_page u url text).bill_number with
      | none => rw [hy, hb] at h; cases h
      | some bn =>
        rw [hy, hb] at h
        simp only at h
        by_cases h1 : (y = 0 || bn.isEmpty) = true
        · rw [if_pos h1] at h; cases h
        · rw [if_neg h1] at h
          by_cases h2 : (!(ys.contains y)) = true
          · rw [if_pos h2] at h; cases h
          · rw [if_neg h2] at h
            by_cases h3 : (!(parse_bill_page u url text).matched) = true
            · rw [if_pos h3] at h; cases h
            · rw [if_neg h3] at h
              refine ⟨text, y, bn, rfl, hy, hb, ?_, ?_, ?_, ?_, ?_⟩
              · intro hy0; subst hy0; simp at h1
              · intro hb0; subst hb0; simp at h1
              · rcases Bool.eq_false_or_eq_true (ys.contains y) with hcy | hcy
                · exact hcy
                · exact absurd (by rw [hcy]; rfl) h2
              · rcases Bool.eq_false_or_eq_true (parse_bill_page u url text).matched
                  with hcm | hcm
                · exact hcm
                · exact absurd (by rw [hcm]; rfl) h3

              · exact (Option.some_inj.mp h).symm

theorem rowKey_mkRow (b url : Str) (y : Nat) (bn : Str) (t : Option Str) :
    rowKey (mkRow b url y bn t) = (b, y, bn) := rfl

/-- The summary URL of a constructed row is the filled-in template. -/
theorem mkRow_summary {y : Nat} {bn : Str} (hy : y ≠ 0) (hbn : bn ≠ [])
    (b url : Str) (t : Option Str) :
    (mkRow b url y bn t).bill_summary_url =
      "https://app.leg.wa.gov/BillSummary/?BillNumber=".toList ++ bn
        ++ "&Year=".toList ++ natToStr y ++ "&Initiative=false".toList := by
  have hb : bn.isEmpty = false := by
    cases bn with
    | nil => exact absurd rfl hbn
    | cons c cs => rfl
  have hyn : (y != 0) = true := by simp [hy]
  show pyOrStr (bill_summary_url (some bn) (some y)) [] = _
  simp only [bill_summary_url, pyTruthyStr, pyTruthyNat, hb, hyn, Option.getD_some,
    Bool.not_false, Bool.and_true, Bool.not_true, Bool.false_eq_true, if_false]
  simp only [pyOrStr]
  have hne : (("https://app.leg.wa.gov/BillSummary/?BillNumber=".toList ++ bn
      ++ "&Year=".toList ++ natToStr y ++ "&Initiative=false".toList) : Str).isEmpty
      = false := rfl
  rw [hne]
  rfl

/-! ## C8: a failed listing fetch skips the session and never aborts the run -/

/-- C8: a session whose listing fetch fails contributes nothing; the run
continues and the written report equals the one over the remaining
sessions. -/
theorem listing_failure_skips_session (u : Str → Str) (f : Str → Option Str)
    (ys : List Nat) (pre post : List (Str × Except Unit (List Str)))
    (b : Str) (e : Unit) :
    mainRows u f ys (pre ++ (b, Except.error e) :: post) =
      mainRows u f ys (pre ++ post) := by
  unfold mainRows
  rw [List.foldl_append, List.foldl_append, List.foldl_cons]
  rfl

/-! ## C1: the deduplication invariant -/

/-- C1: no two report rows share the `(biennium, year, bill_number)` triple;
and the loop body skips a qualifying record whose dedup key is already in
the set, while a fresh key is inserted with exactly one row appended. -/
theorem dedup_invariant (u : Str → Str) (f : Str → Option Str) (ys : List Nat)
    (sessions : List (Str × Except Unit (List Str))) :
    (mainRows u f ys sessions).Pairwise
      (fun r r' => ¬(r.biennium = r'.biennium ∧ r.year = r'.year ∧
        r.bill_number = r'.bill_number))
    ∧ ∀ (st : PState) (b url : Str) (r : Row), qualRow u f ys b url = some r →
        (rowKey r ∈ st.seen → processOne u f ys b st url = st) ∧
        (rowKey r ∉ st.seen → processOne u f ys b st url =
          ⟨rowKey r :: st.seen, st.rows ++ [r]⟩) := by
  constructor
  · have hkeys : (sessions.foldl (processSession u f ys) ⟨[], []⟩).rows.Pairwise
        (fun r r' => rowKey r ≠ rowKey r') :=
      foldSessions_pairwiseKeys aligned_init List.Pairwise.nil
    have hperm := List.perm_insertionSort RowLE
      (sessions.foldl (processSession u f ys) ⟨[], []⟩).rows
    unfold mainRows sortRows
    refine (List.Perm.pairwise_iff
      (fun h hc => h ⟨hc.1.symm, hc.2.1.symm, hc.2.2.symm⟩) hperm).mpr ?_
    exact hkeys.imp fun h hc => h (by unfold rowKey; rw [hc.1, hc.2.1, hc.2.2])
  · intro st b url r hq
    constructor
    · intro hmem
      rw [processOne_char, hq]
      simp only
      rw [if_pos ((contains_iff_mem _ _).mpr hmem)]
    · intro hmem
      rw [processOne_char, hq]
      simp only
      rw [if_neg (fun hc => hmem ((contains_iff_mem _ _).mp hc))]

/-! ## C2: the sort invariant -/

theorem rowLe_iff (r1 r2 : Row) :
    rowLe r1 r2 = true ↔
      r1.year < r2.year ∨ (r1.year = r2.year ∧
        digitsToNat (r1.bill_number.filter isDigitChar) ≤
          digitsToNat (r2.bill_number.filter isDigitChar)) := by
  simp [rowLe, keyLe, sortKey, decide_eq_true_eq]

instance : IsTotal Row RowLE where
  total r1 r2 := by
    simp only [RowLE, rowLe_iff]
    omega

instance : IsTrans Row RowLE where
  trans r1 r2 r3 := by
    simp only [RowLE, rowLe_iff]
    omega

/-- C2: the written rows are non-decreasing by
`(year, numeric value of the digits of bill_number)`, whatever the
completion order of the extractions was. -/
theorem sort_invariant (u : Str → Str) (f : Str → Option Str) (ys : List Nat)
    (sessions : List (Str × Except Unit (List Str))) :
    (mainRows u f ys sessions).Pairwise
      (fun r1 r2 => r1.year < r2.year ∨ (r1.year = r2.year ∧
        digitsToNat (r1.bill_number.filter isDigitChar) ≤
          digitsToNat (r2.bill_number.filter isDigitChar))) := by
  have h := List.sorted_insertionSort RowLE
    ((sessions.foldl (processSession u f ys) ⟨[], []⟩).rows)
  exact h.imp fun hle => (rowLe_iff _ _).mp hle

/-! ## C3: the filter invariant -/

/-- C3: every written row has its year in the configured year set and comes
from a fetched document whose text matches the keyword pattern
case-insensitively; any record failing a condition of the qualification
chain (fetch failed, year or identifier absent or falsy, year filtered out,
no keyword match — checked in this order, first failure wins) leaves the
state untouched and contributes no row. -/
theorem filter_invariant (u : Str → Str) (f : Str → Option Str) (ys : List Nat)
    (sessions : List (Str × Except Unit (List Str))) :
    (∀ r ∈ mainRows u f ys sessions, r.year ∈ ys ∧
       ∃ text, f r.bill_text_url = some text ∧ keywordMatched text = true)
    ∧ ∀ (b url : Str) (st : PState),
        qualRow u f ys b url = none → processOne u f ys b st url = st := by
  constructor
  · refine mainRows_forall ?_
    intro b url r hq
    obtain ⟨text, y, bn, hf, hy, hb, hy0, hb0, hys, hm, hr⟩ := qualRow_some hq
    subst hr
    refine ⟨(contains_iff_mem _ _).mp hys, text, hf, ?_⟩
    exact hm
  · intro b url st hq
    rw [processOne_char, hq]

/-! ## C9: written rows always carry a non-empty summary URL -/

/-- C9: the empty-string branch of the summary-URL derivation is
unreachable for written rows: every row of the report has a non-empty
`bill_summary_url`. -/
theorem summary_nonempty (u : Str → Str) (f : Str → Option Str) (ys : List Nat)
    (sessions : List (Str × Except Unit (List Str))) :
    ∀ r ∈ mainRows u f ys sessions, r.bill_summary_url ≠ [] := by
  refine mainRows_forall ?_
  intro b url r hq
  obtain ⟨text, y, bn, hf, hy, hb, hy0, hb0, hys, hm, hr⟩ := qualRow_some hq
  subst hr
  rw [mkRow_summary hy0 hb0]
  intro hcontra
  rw [List.append_eq_nil] at hcontra
  exact absurd hcontra.2 (by decide)

/-! ## C7: the summary URL derivation -/

/-- C7: with a truthy bill number and year, `bill_summary_url` is the fixed
template filled with exactly that identifier and year; if either is absent
or falsy it is `None`, and the row field then defaults to the empty string.
Every written row's `bill_summary_url` is the template filled with the
row's own identifier digits and year. -/
theorem summary_url_spec (u : Str → Str) (f : Str → Option Str) (ys : List Nat)
    (sessions : List (Str × Except Unit (List Str))) :
    (∀ (bn : Str) (y : Nat), bn ≠ [] → y ≠ 0 →
       bill_summary_url (some bn) (some y) =
         some ("https://app.leg.wa.gov/BillSummary/?BillNumber=".toList ++ bn
           ++ "&Year=".toList ++ natToStr y ++ "&Initiative=false".toList))
    ∧ (∀ (ob : Option Str) (oy : Option Nat),
         pyTruthyStr ob = false ∨ pyTruthyNat oy = false →
         bill_summary_url ob oy = none ∧ pyOrStr (bill_summary_url ob oy) [] = [])
    ∧ (∀ r ∈ mainRows u f ys sessions,
         r.bill_summary_url =
           "https://app.leg.wa.gov/BillSummary/?BillNumber=".toList
             ++ r.bill_number.drop 3 ++ "&Year=".toList ++ natToStr r.year
             ++ "&Initiative=false".toList) := by
  refine ⟨?_, ?_, ?_⟩
  · intro bn y hbn hy
    have hb : bn.isEmpty = false := by
      cases bn with
      | nil => exact absurd rfl hbn
      | cons c cs => rfl
    have hyn : (y != 0) = true := by simp [hy]
    simp [bill_summary_url, pyTruthyStr, pyTruthyNat, hb, hyn]
  · intro ob oy hfalse
    have hnone : bill_summary_url ob oy = none := by
      rcases hfalse with h | h <;> simp [bill_summary_url, h]
    exact ⟨hnone, by rw [hnone]; rfl⟩
  · refine mainRows_forall ?_
    intro b url r hq
    obtain ⟨text, y, bn, hf, hy, hb, hy0, hb0, hys, hm, hr⟩ := qualRow_some hq
    subst hr
    rw [mkRow_summary hy0 hb0]
    rfl

/-! ## The filename fallback (C6, C10) -/

theorem psearch_cons {α : Type} (m : Str → Option α) (c : Char) (cs : Str) :
    psearch m (c :: cs) =
      match m (c :: cs) with
      | some r => some r
      | none => psearch m cs := rfl

theorem isFnameTailChar_of_digit {c : Char} (h : isDigitChar c = true) :
    isFnameTailChar c = true := by
  simp only [isFnameTailChar, isWordChar, isDigitChar] at h ⊢
  simp [h]

/-- `[-\w]*\.htm$` holds of `w ++ ".htm"` exactly when `w` is all `[-\w]`. -/
theorem suffixHtmOk_append (w : Str) :
    suffixHtmOk (w ++ ".htm".toList) = w.all isFnameTailChar := by
  have h4 : ((w ++ ".htm".toList : Str)).reverse = 'm' :: 't' :: 'h' :: '.' :: w.reverse := by
    rw [List.reverse_append]
    rfl
  unfold suffixHtmOk
  rw [h4]
  simp [List.all_reverse]

/-- A successful `[-\w]*\.htm$` leaves no `/` in the rest. -/
theorem suffixHtmOk_no_slash {w : Str} (h : suffixHtmOk w = true) : '/' ∉ w := by
  unfold suffixHtmOk at h
  intro hmem
  have hmemr : '/' ∈ w.reverse := List.mem_reverse.mpr hmem
  rcases hw : w.reverse with _ | ⟨m1, _ | ⟨t1, _ | ⟨h1, _ | ⟨d1, r1⟩⟩⟩⟩ <;>
      rw [hw] at h hmemr
  · cases h
  · cases h
  · cases h
  · cases h
  · simp only [Bool.and_eq_true, decide_eq_true_eq] at h
    obtain ⟨⟨⟨⟨rfl, rfl⟩, rfl⟩, rfl⟩, hall⟩ := h
    simp only [List.mem_cons] at hmemr
    rcases hmemr with h' | h' | h' | h' | h'
    · exact absurd h' (by decide)
    · exact absurd h' (by decide)
    · exact absurd h' (by decide)
    · exact absurd h' (by decide)
    · exact absurd (List.all_eq_true.mp hall _ h') (by decide)

/-- A successful filename match contains no `/` after its leading one:
the `$` anchor makes the match run to the end of the URL, and none of the
pattern's pieces accepts a slash. -/
theorem matchFnameAt_no_slash {cs : Str} {g : Str} (x : Char)
    (h : matchFnameAt (x :: cs) = some g) : '/' ∉ cs := by
  rcases cs with _ | ⟨a, _ | ⟨b, _ | ⟨c, rest⟩⟩⟩ <;>
    simp only [matchFnameAt] at h
  · cases h
  · cases h
  · cases h
  by_cases hcond : (x = '/' && isDigitChar a && isDigitChar b && isDigitChar c) = true
  · rw [if_pos hcond] at h
    simp only [Bool.and_eq_true, decide_eq_true_eq] at hcond
    obtain ⟨⟨⟨rfl, ha⟩, hb⟩, hc⟩ := hcond
    cases rest with
    | nil => cases h
    | cons d rest2 =>
      replace h :
          (if (isDigitChar d && suffixHtmOk rest2) = true then some [a, b, c, d]
           else if suffixHtmOk (d :: rest2) = true then some [a, b, c]
           else none) = some g := h
      intro hmem
      simp only [List.mem_cons] at hmem
      rcases hmem with h' | h' | h' | hmem'
      · rw [← h'] at ha; simp [isDigitChar] at ha
      · rw [← h'] at hb; simp [isDigitChar] at hb
      · rw [← h'] at hc; simp [isDigitChar] at hc
      by_cases h1 : (isDigitChar d && suffixHtmOk rest2) = true
      · rcases hmem' with h' | hmem2
        · have hd := Bool.and_elim_left h1
          rw [← h'] at hd; simp [isDigitChar] at hd
        · exact suffixHtmOk_no_slash (Bool.and_elim_right h1) hmem2
      · rw [if_neg h1] at h
        by_cases h2 : suffixHtmOk (d :: rest2) = true
        · rw [← List.mem_cons] at hmem'
          exact suffixHtmOk_no_slash h2 hmem'
        · rw [if_neg h2] at h
          cases h
  · rw [if_neg hcond] at h
    cases h

/-- Searching a URL whose last slash is followed by a slash-free tail:
every earlier start position fails, because a successful match would run to
the end of the string and would then contain that later slash. -/
theorem psearch_fname_append (pre tail : Str) (hs : '/' ∈ tail) :
    psearch matchFnameAt (pre ++ tail) = psearch matchFnameAt tail := by
  induction pre with
  | nil => rfl
  | cons p pre' ih =>
    rw [List.cons_append, psearch_cons]
    cases hm : matchFnameAt (p :: (pre' ++ tail)) with
    | some g =>
      exact absurd (List.mem_append.mpr (Or.inr hs)) (matchFnameAt_no_slash p hm)
    | none => exact ih

/-- The head match at the final slash, four-digit case with trailing
`[-\w]` characters. -/
theorem matchFnameAt_four {a b c d : Char} {w : Str}
    (ha : isDigitChar a = true) (hb : isDigitChar b = true)
    (hc : isDigitChar c = true) (hd : isDigitChar d = true)
    (hw : w.all isFnameTailChar = true) :
    matchFnameAt ('/' :: a :: b :: c :: d :: (w ++ ".htm".toList)) =
      some [a, b, c, d] := by
  simp only [matchFnameAt]
  rw [if_pos (by simp [ha, hb, hc])]
  rw [if_pos (by rw [Bool.and_eq_true]; exact ⟨hd, (suffixHtmOk_append w).trans hw⟩)]

/-- The head match at the final slash, three-digit case: the qualifier
suffix is empty or starts with `-`, so the greedy four-digit try fails. -/
theorem matchFnameAt_three {a b c : Char} {suffix : Str}
    (ha : isDigitChar a = true) (hb : isDigitChar b = true)
    (hc : isDigitChar c = true)
    (hsfx : suffix = [] ∨ ∃ t, suffix = '-' :: t)
    (hw : suffix.all isFnameTailChar = true) :
    matchFnameAt ('/' :: a :: b :: c :: (suffix ++ ".htm".toList)) =
      some [a, b, c] := by
  rcases hsfx with rfl | ⟨t, rfl⟩
  · show matchFnameAt ('/' :: a :: b :: c :: '.' :: "htm".toList) = _
    simp only [matchFnameAt]
    rw [if_pos (by simp [ha, hb, hc])]
    rw [if_neg (by decide)]
    rw [if_pos (by exact (suffixHtmOk_append []).trans rfl)]
  · show matchFnameAt ('/' :: a :: b :: c :: '-' :: (t ++ ".htm".toList)) = _
    simp only [matchFnameAt]
    rw [if_pos (by simp [ha, hb, hc])]
    rw [if_neg (by simp [isDigitChar])]
    rw [if_pos (by
      have : ('-' :: (t ++ ".htm".toList) : Str) = ('-' :: t) ++ ".htm".toList := rfl
      rw [this, suffixHtmOk_append]
      exact hw)]

/-- C10: a URL whose final path segment starts with five or more digits
before `.htm` still matches the fallback pattern: the group takes the first
four digits greedily and `[-\w]*` absorbs the remaining digits. -/
theorem fallback_five_digits (pre ds : Str)
    (hall : ∀ c ∈ ds, isDigitChar c = true) (hlen : 5 ≤ ds.length) :
    fnameSearch (pre ++ '/' :: (ds ++ ".htm".toList)) = some (ds.take 4) := by
  unfold fnameSearch
  rw [psearch_fname_append pre _ (List.mem_cons_self _ _)]
  rcases ds with _ | ⟨a, _ | ⟨b, _ | ⟨c, _ | ⟨d, rest⟩⟩⟩⟩ <;> simp at hlen
  have hrest : rest.all isFnameTailChar = true := by
    rw [List.all_eq_true]
    intro c' hc'
    exact isFnameTailChar_of_digit (hall c' (by simp [hc']))
  rw [show ('/' :: ((a :: b :: c :: d :: rest) ++ ".htm".toList) : Str) =
    '/' :: a :: b :: c :: d :: (rest ++ ".htm".toList) from rfl]
  rw [psearch_cons]
  rw [matchFnameAt_four (hall a (by simp)) (hall b (by simp)) (hall c (by simp))
    (hall d (by simp)) hrest]
  rfl

/-- C6: with no "HOUSE BILL n" phrase in the text, the identifier falls back
to the 3–4 digit number in the URL's final path segment (ignoring a trailing
qualifier suffix and the `.htm` extension); if that pattern fails too, the
identifier is absent. -/
theorem fallback_invariant (u : Str → Str) :
    (∀ (text pre ds suffix : Str), billnumSearch text = none →
       (∀ c ∈ ds, isDigitChar c = true) → (ds.length = 3 ∨ ds.length = 4) →
       (suffix = [] ∨ ∃ t, suffix = '-' :: t) →
       (∀ c ∈ suffix, isFnameTailChar c = true) →
       (parse_bill_page u (pre ++ '/' :: (ds ++ suffix ++ ".htm".toList)) text).bill_number
         = some ds)
    ∧ (∀ (text url : Str), billnumSearch text = none → fnameSearch url = none →
         (parse_bill_page u url text).bill_number = none) := by
  constructor
  · intro text pre ds suffix hbn hall hlen hsfx hsall
    show (match billnumSearch text with
          | some b => some b
          | none => fnameSearch (pre ++ '/' :: (ds ++ suffix ++ ".htm".toList))) = _
    rw [hbn]
    unfold fnameSearch
    rw [psearch_fname_append pre _ (List.mem_cons_self _ _)]
    have hsfxall : suffix.all isFnameTailChar = true := by
      rw [List.all_eq_true]; exact hsall
    rcases hlen with hlen | hlen
    · rcases ds with _ | ⟨a, _ | ⟨b, _ | ⟨c, _ | ⟨d, rest⟩⟩⟩⟩ <;> simp at hlen
      rw [show ('/' :: (([a, b, c] ++ suffix) ++ ".htm".toList) : Str) =
        '/' :: a :: b :: c :: (suffix ++ ".htm".toList) from by simp]
      rw [psearch_cons]
      rw [matchFnameAt_three (hall a (by simp)) (hall b (by simp)) (hall c (by simp))
        hsfx hsfxall]
    · rcases ds with _ | ⟨a, _ | ⟨b, _ | ⟨c, _ | ⟨d, _ | ⟨e, rest⟩⟩⟩⟩⟩ <;> simp at hlen
      rw [show ('/' :: (([a, b, c, d] ++ suffix) ++ ".htm".toList) : Str) =
        '/' :: a :: b :: c :: d :: (suffix ++ ".htm".toList) from by simp]
      rw [psearch_cons]
      rw [matchFnameAt_four (hall a (by simp)) (hall b (by simp)) (hall c (by simp))
        (hall d (by simp)) hsfxall]
  · intro text url hbn hfn
    show (match billnumSearch text with
          | some b => some b
          | none => fnameSearch url) = _
    rw [hbn, hfn]

/-! ## Year extraction: matcher vs. declarative occurrence (C5) -/

theorem ciStrip_some {pat cs r : Str} (h : ciStrip pat cs = some r) :
    ∃ q, cs = q ++ r ∧ q.map lowerChar = pat.map lowerChar := by
  induction pat generalizing cs with
  | nil =>
    unfold ciStrip at h
    obtain rfl := Option.some_inj.mp h
    exact ⟨[], rfl, rfl⟩
  | cons p ps ih =>
    cases cs with
    | nil => cases h
    | cons c cs' =>
      unfold ciStrip at h
      by_cases hc : lowerChar c = lowerChar p
      · rw [if_pos hc] at h
        obtain ⟨q, rfl, hq⟩ := ih h
        exact ⟨c :: q, rfl, by simp [hq, hc]⟩
      · rw [if_neg hc] at h
        cases h

theorem ciStrip_append {pat q : Str} (r : Str)
    (h : q.map lowerChar = pat.map lowerChar) :
    ciStrip pat (q ++ r) = some r := by
  induction pat generalizing q with
  | nil =>
    have : q = [] := by
      cases q with
      | nil => rfl
      | cons a t => cases h
    subst this
    rfl
  | cons p ps ih =>
    rcases List.map_eq_cons_iff.mp h with ⟨c, q', rfl, hc, hrest⟩
    show ciStrip (p :: ps) (c :: (q' ++ r)) = some r
    unfold ciStrip
    rw [if_pos hc]
    exact ih hrest

theorem ciStrip_none_head {p c : Char} (ps cs : Str)
    (h : lowerChar c ≠ lowerChar p) : ciStrip (p :: ps) (c :: cs) = none := by
  unfold ciStrip
  rw [if_neg h]

/-- All-whitespace prefixes are dropped entirely when the remainder does
not begin with whitespace. -/
theorem dropWhile_space_append {s r : Str} (hs : ∀ c ∈ s, isSpaceChar c = true)
    (hr : ∀ c ∈ r.take 1, isSpaceChar c = false) :
    (s ++ r).dropWhile isSpaceChar = r := by
  induction s with
  | nil =>
    cases r with
    | nil => rfl
    | cons c cs =>
      rw [List.nil_append, List.dropWhile_cons, if_neg (by simp [hr c (by simp)])]
  | cons a t ih =>
    rw [List.cons_append, List.dropWhile_cons, if_pos (hs a (by simp))]
    exact ih (fun c hc => hs c (by simp [hc]))

theorem spaces1_some {cs r : Str} (h : spaces1 cs = some r) :
    ∃ s, cs = s ++ r ∧ s ≠ [] ∧ ∀ c ∈ s, isSpaceChar c = true := by
  cases cs with
  | nil => cases h
  | cons c cs' =>
    replace h : (if isSpaceChar c = true
        then some (cs'.dropWhile isSpaceChar) else none) = some r := h
    by_cases hc : isSpaceChar c = true
    · rw [if_pos hc] at h
      obtain rfl := Option.some_inj.mp h
      refine ⟨c :: cs'.takeWhile isSpaceChar, ?_, by simp, ?_⟩
      · rw [List.cons_append, List.takeWhile_append_dropWhile]
      · intro x hx
        rcases List.mem_cons.mp hx with rfl | hx
        · exact hc
        · exact List.mem_takeWhile_imp hx
    · rw [if_neg hc] at h
      cases h

theorem spaces1_append {s r : Str} (hne : s ≠ [])
    (hs : ∀ c ∈ s, isSpaceChar c = true)
    (hr : ∀ c ∈ r.take 1, isSpaceChar c = false) :
    spaces1 (s ++ r) = some r := by
  cases s with
  | nil => exact absurd rfl hne
  | cons a t =>
    rw [List.cons_append]
    show (if isSpaceChar a = true
        then some ((t ++ r).dropWhile isSpaceChar) else none) = some r
    rw [if_pos (hs a (by simp))]
    rw [dropWhile_space_append (fun c hc => hs c (by simp [hc])) hr]

/-- Whitespace characters are their own lower case, so a character whose
lower case is a letter or digit is not whitespace. -/
theorem not_space_of_lower {c d : Char} (h : lowerChar c = d)
    (hd : isSpaceChar d = false) : isSpaceChar c = false := by
  rcases Bool.eq_false_or_eq_true (isSpaceChar c) with hc | hc
  · exfalso
    have hcc : lowerChar c = c := by
      simp only [isSpaceChar, Bool.or_eq_true, decide_eq_true_eq] at hc
      rcases hc with ((((rfl | rfl) | rfl) | rfl) | rfl) | rfl <;> rfl
    rw [hcc] at h
    subst h
    rw [hc] at hd
    cases hd
  · exact hc

theorem qualifierStrip_some {cs r : Str} (h : qualifierStrip cs = some r) :
    ∃ q w, cs = q ++ r ∧ w ∈ qualifierWords ∧ ciEq q w := by
  unfold qualifierStrip at h
  cases h1 : ciStrip "Regular".toList cs with
  | some r1 =>
    rw [h1] at h
    replace h : some r1 = some r := h
    obtain rfl := Option.some_inj.mp h
    obtain ⟨q, rfl, hq⟩ := ciStrip_some h1
    exact ⟨q, "Regular".toList, rfl, by simp [qualifierWords], hq⟩
  | none =>
    rw [h1] at h
    replace h : (match ciStrip "1st".toList cs with
      | some r => some r
      | none =>
        match ciStrip "2nd".toList cs with
        | some r => some r
        | none => ciStrip "3rd".toList cs) = some r := h
    cases h2 : ciStrip "1st".toList cs with
    | some r2 =>
      rw [h2] at h
      replace h : some r2 = some r := h
      obtain rfl := Option.some_inj.mp h
      obtain ⟨q, rfl, hq⟩ := ciStrip_some h2
      exact ⟨q, "1st".toList, rfl, by simp [qualifierWords], hq⟩
    | none =>
      rw [h2] at h
      replace h : (match ciStrip "2nd".toList cs with
        | some r => some r
        | none => ciStrip "3rd".toList cs) = some r := h
      cases h3 : ciStrip "2nd".toList cs with
      | some r3 =>
        rw [h3] at h
        replace h : some r3 = some r := h
        obtain rfl := Option.some_inj.mp h
        obtain ⟨q, rfl, hq⟩ := ciStrip_some h3
        exact ⟨q, "2nd".toList, rfl, by simp [qualifierWords], hq⟩
      | none =>
        rw [h3] at h
        replace h : ciStrip "3rd".toList cs = some r := h
        obtain ⟨q, rfl, hq⟩ := ciStrip_some h
        exact ⟨q, "3rd".toList, rfl, by simp [qualifierWords], hq⟩

theorem qualifierStrip_append {q w : Str} (r : Str) (hw : w ∈ qualifierWords)
    (hq : ciEq q w) : qualifierStrip (q ++ r) = some r := by
  unfold ciEq at hq
  simp only [qualifierWords, List.mem_cons, List.not_mem_nil, or_false] at hw
  rcases hw with rfl | rfl | rfl | rfl
  · unfold qualifierStrip
    rw [ciStrip_append r hq]
  · rcases List.map_eq_cons_iff.mp hq with ⟨c0, q', rfl, hc0, hrest⟩
    have h1 : ciStrip "Regular".toList (c0 :: (q' ++ r)) = none := by
      rw [show ("Regular".toList : Str) = 'R' :: "egular".toList from rfl]
      exact ciStrip_none_head _ _ (by rw [hc0]; decide)
    have h2 : ciStrip "1st".toList (c0 :: (q' ++ r)) = some r := by
      rw [← List.cons_append]
      exact ciStrip_append r hq
    show qualifierStrip (c0 :: (q' ++ r)) = some r
    unfold qualifierStrip
    rw [h1, h2]
  · rcases List.map_eq_cons_iff.mp hq with ⟨c0, q', rfl, hc0, hrest⟩
    have h1 : ciStrip "Regular".toList (c0 :: (q' ++ r)) = none := by
      rw [show ("Regular".toList : Str) = 'R' :: "egular".toList from rfl]
      exact ciStrip_none_head _ _ (by rw [hc0]; decide)
    have h2 : ciStrip "1st".toList (c0 :: (q' ++ r)) = none := by
      rw [show ("1st".toList : Str) = '1' :: "st".toList from rfl]
      exact ciStrip_none_head _ _ (by rw [hc0]; decide)
    have h3 : ciStrip "2nd".toList (c0 :: (q' ++ r)) = some r := by
      rw [← List.cons_append]
      exact ciStrip_append r hq
    show qualifierStrip (c0 :: (q' ++ r)) = some r
    unfold qualifierStrip
    rw [h1, h2, h3]
  · rcases List.map_eq_cons_iff.mp hq with ⟨c0, q', rfl, hc0, hrest⟩
    have h1 : ciStrip "Regular".toList (c0 :: (q' ++ r)) = none := by
      rw [show ("Regular".toList : Str) = 'R' :: "egular".toList from rfl]
      exact ciStrip_none_head _ _ (by rw [hc0]; decide)
    have h2 : ciStrip "1st".toList (c0 :: (q' ++ r)) = none := by
      rw [show ("1st".toList : Str) = '1' :: "st".toList from rfl]
      exact ciStrip_none_head _ _ (by rw [hc0]; decide)
    have h3 : ciStrip "2nd".toList (c0 :: (q' ++ r)) = none := by
      rw [show ("2nd".toList : Str) = '2' :: "nd".toList from rfl]
      exact ciStrip_none_head _ _ (by rw [hc0]; decide)
    have h4 : ciStrip "3rd".toList (c0 :: (q' ++ r)) = some r := by
      rw [← List.cons_append]
      exact ciStrip_append r hq
    show qualifierStrip (c0 :: (q' ++ r)) = some r
    unfold qualifierStrip
    rw [h1, h2, h3, h4]

/-- The first character of a nonempty case-insensitive match of a word whose
first letter is not whitespace is itself not whitespace. -/
theorem take1_not_space {q : Str} (R : Str) {c : Char} {tl : Str}
    (hq : q.map lowerChar = c :: tl) (hc : isSpaceChar c = false) :
    ∀ x ∈ (q ++ R).take 1, isSpaceChar x = false := by
  rcases List.map_eq_cons_iff.mp hq with ⟨q0, q', rfl, hc0, _⟩
  intro x hx
  rw [List.cons_append, List.take_succ_cons, List.take_zero,
    List.mem_singleton] at hx
  subst hx
  exact not_space_of_lower hc0 hc

/-- The lowered spelling of each qualifier word, in head-exposed form. -/
theorem qualifierWords_lower :
    ("Regular".toList : Str).map lowerChar = 'r' :: "egular".toList
    ∧ ("1st".toList : Str).map lowerChar = '1' :: "st".toList
    ∧ ("2nd".toList : Str).map lowerChar = '2' :: "nd".toList
    ∧ ("3rd".toList : Str).map lowerChar = '3' :: "rd".toList := by
  refine ⟨?_, ?_, ?_, ?_⟩ <;> decide

/-- The year pattern minus its `\b`, at the head of the input, is equivalent
to the declarative decomposition read off the claim. -/
theorem matchYearAt_some_iff {cs : Str} {y : Nat} :
    matchYearAt cs = some y ↔ YearHead cs y := by
  constructor
  · intro h
    rcases cs with _ | ⟨c2, _ | ⟨c0, _ | ⟨d1, _ | ⟨d2, rest⟩⟩⟩⟩ <;>
      simp only [matchYearAt] at h
    · cases h
    · cases h
    · cases h
    · cases h
    by_cases hcond : (c2 = '2' && c0 = '0' && isDigitChar d1 && isDigitChar d2) = true
    · rw [if_pos hcond] at h
      simp only [Bool.and_eq_true, decide_eq_true_eq] at hcond
      obtain ⟨⟨⟨rfl, rfl⟩, hd1⟩, hd2⟩ := hcond
      cases h1 : spaces1 rest with
      | none => rw [h1] at h; cases h
      | some r1 =>
        rw [h1] at h
        replace h : (match qualifierStrip r1 with
          | none => none
          | some r2 =>
            match spaces1 r2 with
            | none => none
            | some r3 =>
              match ciStrip "Session".toList r3 with
              | none => none
              | some _ => some (2000 + 10 * digitVal d1 + digitVal d2)) = some y := h
        cases h2 : qualifierStrip r1 with
        | none => rw [h2] at h; cases h
        | some r2 =>
          rw [h2] at h
          replace h : (match spaces1 r2 with
            | none => none
            | some r3 =>
              match ciStrip "Session".toList r3 with
              | none => none
              | some _ => some (2000 + 10 * digitVal d1 + digitVal d2)) = some y := h
          cases h3 : spaces1 r2 with
          | none => rw [h3] at h; cases h
          | some r3 =>
            rw [h3] at h
            replace h : (match ciStrip "Session".toList r3 with
              | none => none
              | some _ => some (2000 + 10 * digitVal d1 + digitVal d2)) = some y := h
            cases h4 : ciStrip "Session".toList r3 with
            | none => rw [h4] at h; cases h
            | some r4 =>
              rw [h4] at h
              replace h : some (2000 + 10 * digitVal d1 + digitVal d2) = some y := h
              obtain ⟨s1, rfl, hs1ne, hs1⟩ := spaces1_some h1
              obtain ⟨q, w, rfl, hw, hqw⟩ := qualifierStrip_some h2
              obtain ⟨s2, rfl, hs2ne, hs2⟩ := spaces1_some h3
              obtain ⟨ssn, rfl, hssn⟩ := ciStrip_some h4
              refine ⟨d1, d2, s1, q, s2, ssn, r4, ?_, hd1, hd2, hs1ne, hs1,
                ⟨w, hw, hqw⟩, hs2ne, hs2, hssn, (Option.some_inj.mp h).symm⟩
              simp [List.append_assoc]
    · rw [if_neg hcond] at h
      cases h
  · rintro ⟨d1, d2, s1, q, s2, ssn, rest, rfl, hd1, hd2, hs1ne, hs1,
      ⟨w, hw, hqw⟩, hs2ne, hs2, hssn, rfl⟩
    simp only [matchYearAt]
    rw [if_pos (by simp [hd1, hd2])]
    have hassoc : (s1 ++ q ++ s2 ++ ssn ++ rest : Str)
        = s1 ++ (q ++ (s2 ++ (ssn ++ rest))) := by
      simp [List.append_assoc]
    rw [hassoc]
    unfold ciEq at hqw
    have hqhead : ∀ x ∈ (q ++ (s2 ++ (ssn ++ rest))).take 1, isSpaceChar x = false := by
      simp only [qualifierWords, List.mem_cons, List.not_mem_nil, or_false] at hw
      obtain ⟨hR, h1, h2, h3⟩ := qualifierWords_lower
      rcases hw with rfl | rfl | rfl | rfl
      · exact take1_not_space _ (hqw.trans hR) (by decide)
      · exact take1_not_space _ (hqw.trans h1) (by decide)
      · exact take1_not_space _ (hqw.trans h2) (by decide)
      · exact take1_not_space _ (hqw.trans h3) (by decide)
    rw [spaces1_append hs1ne hs1 hqhead]
    show (match qualifierStrip (q ++ (s2 ++ (ssn ++ rest))) with
      | none => none
      | some r2 =>
        match spaces1 r2 with
        | none => none
        | some r3 =>
          match ciStrip "Session".toList r3 with
          | none => none
          | some _ => some (2000 + 10 * digitVal d1 + digitVal d2)) = _
    rw [qualifierStrip_append _ hw hqw]
    unfold ciEq at hssn
    have hssnlower : ("Session".toList : Str).map lowerChar = 's' :: "ession".toList := by
      decide
    have hssnhead : ∀ x ∈ (ssn ++ rest).take 1, isSpaceChar x = false :=
      take1_not_space _ (hssn.trans hssnlower) (by decide)
    show (match spaces1 (s2 ++ (ssn ++ rest)) with
      | none => none
      | some r3 =>
        match ciStrip "Session".toList r3 with
        | none => none
        | some _ => some (2000 + 10 * digitVal d1 + digitVal d2)) = _
    rw [spaces1_append hs2ne hs2 hssnhead]
    show (match ciStrip "Session".toList (ssn ++ rest) with
      | none => none
      | some _ => some (2000 + 10 * digitVal d1 + digitVal d2)) = _
    rw [ciStrip_append _ hssn]

theorem prevAt_succ (prev : Option Char) (c : Char) (cs' : Str) (i : Nat) :
    prevAt prev (c :: cs') (i + 1) = prevAt (some c) cs' i := by
  cases i with
  | zero => rfl
  | succ j => rfl

/-- `re.search` with a leading `\b`: the result is the value of the head
matcher at the first boundary position where it succeeds, and it is `none`
exactly when the head matcher fails at every boundary position. -/
theorem bsearch_some_iff {α : Type} (m : Str → Option α) (hm : m [] = none)
    (prev : Option Char) (cs : Str) (r : α) :
    bsearch m prev cs = some r ↔
      ∃ i, noWordBefore (prevAt prev cs i) = true ∧ m (cs.drop i) = some r ∧
        ∀ j < i, noWordBefore (prevAt prev cs j) = true → m (cs.drop j) = none := by
  induction cs generalizing prev with
  | nil =>
    constructor
    · intro h
      cases h
    · rintro ⟨i, _, hmi, _⟩
      rw [List.drop_nil, hm] at hmi
      cases hmi
  | cons c cs' ih =>
    constructor
    · intro h
      replace h : (match (if noWordBefore prev = true then m (c :: cs') else none) with
        | some r0 => some r0
        | none => bsearch m (some c) cs') = some r := h
      by_cases hb : noWordBefore prev = true
      · rw [if_pos hb] at h
        cases hm0 : m (c :: cs') with
        | some v =>
          rw [hm0] at h
          replace h : some v = some r := h
          obtain rfl := Option.some_inj.mp h
          exact ⟨0, hb, hm0, fun j hj => absurd hj (Nat.not_lt_zero j)⟩
        | none =>
          rw [hm0] at h
          replace h : bsearch m (some c) cs' = some r := h
          obtain ⟨i, hbi, hmi, hlt⟩ := (ih (some c)).mp h
          refine ⟨i + 1, ?_, ?_, ?_⟩
          · rw [prevAt_succ]; exact hbi
          · rw [List.drop_succ_cons]; exact hmi
          · intro j hj hbj
            cases j with
            | zero => exact hm0
            | succ j' =>
              rw [List.drop_succ_cons]
              rw [prevAt_succ] at hbj
              exact hlt j' (by omega) hbj
      · rw [if_neg hb] at h
        replace h : bsearch m (some c) cs' = some r := h
        obtain ⟨i, hbi, hmi, hlt⟩ := (ih (some c)).mp h
        refine ⟨i + 1, ?_, ?_, ?_⟩
        · rw [prevAt_succ]; exact hbi
        · rw [List.drop_succ_cons]; exact hmi
        · intro j hj hbj
          cases j with
          | zero => exact absurd hbj hb
          | succ j' =>
            rw [List.drop_succ_cons]
            rw [prevAt_succ] at hbj
            exact hlt j' (by omega) hbj
    · rintro ⟨i, hbi, hmi, hlt⟩
      show (match (if noWordBefore prev = true then m (c :: cs') else none) with
        | some r0 => some r0
        | none => bsearch m (some c) cs') = some r
      by_cases hb : noWordBefore prev = true
      · rw [if_pos hb]
        cases hm0 : m (c :: cs') with
        | some v =>
          cases i with
          | zero =>
            rw [List.drop_zero] at hmi
            rw [hmi] at hm0
            obtain rfl := Option.some_inj.mp hm0
            rfl
          | succ i' =>
            have h0 := hlt 0 (Nat.succ_pos _) hb
            rw [List.drop_zero] at h0
            rw [h0] at hm0
            cases hm0
        | none =>
          show bsearch m (some c) cs' = some r
          apply (ih (some c)).mpr
          cases i with
          | zero =>
            rw [List.drop_zero] at hmi
            rw [hmi] at hm0
            cases hm0
          | succ i' =>
            rw [prevAt_succ] at hbi
            rw [List.drop_succ_cons] at hmi
            refine ⟨i', hbi, hmi, ?_⟩
            intro j hj hbj
            have := hlt (j + 1) (by omega) (by rw [prevAt_succ]; exact hbj)
            rwa [List.drop_succ_cons] at this
      · rw [if_neg hb]
        cases i with
        | zero => exact absurd hbi hb
        | succ i' =>
          show bsearch m (some c) cs' = some r
          apply (ih (some c)).mpr
          rw [prevAt_succ] at hbi
          rw [List.drop_succ_cons] at hmi
          refine ⟨i', hbi, hmi, ?_⟩
          intro j hj hbj
          have := hlt (j + 1) (by omega) (by rw [prevAt_succ]; exact hbj)
          rwa [List.drop_succ_cons] at this

theorem noWordBefore_of_NWB {text : Str} {i : Nat} (h : NoWordCharBefore text i) :
    noWordBefore (prevAt none text i) = true := by
  cases i with
  | zero => rfl
  | succ j =>
    rcases h with h0 | ⟨c, hc, hw⟩
    · cases h0
    · show noWordBefore (text.get? j) = true
      rw [show (j + 1 - 1 : Nat) = j from rfl] at hc
      rw [hc]
      simp [noWordBefore, hw]

theorem NWB_of_yearOccurs {text : Str} {i y : Nat}
    (hb : noWordBefore (prevAt none text i) = true) (ho : YearOccursAt text i y) :
    NoWordCharBefore text i := by
  cases i with
  | zero => exact Or.inl rfl
  | succ j =>
    cases hg : text.get? j with
    | some c =>
      refine Or.inr ⟨c, ?_, ?_⟩
      · rw [show (j + 1 - 1 : Nat) = j from rfl]
        exact hg
      · replace hb : noWordBefore (text.get? j) = true := hb
        rw [hg] at hb
        simpa [noWordBefore] using hb
    | none =>
      exfalso
      have hdrop : text.drop (j + 1) = [] :=
        List.drop_eq_nil_of_le (by
          have := List.get?_eq_none.mp hg
          omega)
      obtain ⟨d1, d2, s1, q, s2, ssn, rest, heq, _⟩ := ho
      rw [hdrop] at heq
      cases heq

/-- C5 (amended): the extracted year is the integer value of the first
(leftmost) occurrence — not immediately preceded by a word character
(letter, digit or underscore) — of a four-digit year in 2000–2099 followed
by whitespace and a session-qualifier phrase, matched case-insensitively;
the year is absent exactly when no such occurrence exists. -/
theorem year_extraction_spec (text : Str) (y : Nat) :
    (yearSearch text = some y ↔
      ∃ i, NoWordCharBefore text i ∧ YearOccursAt text i y ∧
        ∀ j < i, ∀ y', ¬(NoWordCharBefore text j ∧ YearOccursAt text j y'))
    ∧ (yearSearch text = none ↔
        ∀ i y', ¬(NoWordCharBefore text i ∧ YearOccursAt text i y')) := by
  have hsome : ∀ y0 : Nat, yearSearch text = some y0 ↔
      ∃ i, NoWordCharBefore text i ∧ YearOccursAt text i y0 ∧
        ∀ j < i, ∀ y', ¬(NoWordCharBefore text j ∧ YearOccursAt text j y') := by
    intro y0
    rw [show yearSearch text = bsearch matchYearAt none text from rfl,
      bsearch_some_iff matchYearAt rfl none text y0]
    constructor
    · rintro ⟨i, hb, hmv, hlt⟩
      have occ : YearOccursAt text i y0 := matchYearAt_some_iff.mp hmv
      refine ⟨i, NWB_of_yearOccurs hb occ, occ, ?_⟩
      rintro j hj y' ⟨nwbj, occj⟩
      have hnone := hlt j hj (noWordBefore_of_NWB nwbj)
      rw [matchYearAt_some_iff.mpr occj] at hnone
      cases hnone
    · rintro ⟨i, nwb, occ, hleft⟩
      refine ⟨i, noWordBefore_of_NWB nwb, matchYearAt_some_iff.mpr occ, ?_⟩
      intro j hj hbj
      cases hmj : matchYearAt (text.drop j) with
      | none => rfl
      | some y' =>
        exfalso
        have occj : YearOccursAt text j y' := matchYearAt_some_iff.mp hmj
        exact hleft j hj y' ⟨NWB_of_yearOccurs hbj occj, occj⟩
  refine ⟨hsome y, ?_, ?_⟩
  · intro h i y' hiy
    classical
    have hP : ∃ n, ∃ y'', NoWordCharBefore text n ∧ YearOccursAt text n y'' :=
      ⟨i, y', hiy.1, hiy.2⟩
    obtain ⟨y0, nwb0, occ0⟩ := Nat.find_spec hP
    have hsome0 : yearSearch text = some y0 :=
      (hsome y0).mpr ⟨Nat.find hP, nwb0, occ0, by
        rintro j hj y'' ⟨a, b⟩
        exact Nat.find_min hP hj ⟨y'', a, b⟩⟩
    rw [h] at hsome0
    cases hsome0
  · intro hall
    cases hys : yearSearch text with
    | none => rfl
    | some y0 =>
      exfalso
      obtain ⟨i, nwb, occ, _⟩ := (hsome y0).mp hys
      exact hall i y0 ⟨nwb, occ⟩

/-- C5 counterexample to the unamended claim: in `"a2024 Regular Session"`
the first (and only) occurrence of the year pattern is at position 1 with
value 2024, yet the extractor returns no year, because the occurrence is
immediately preceded by the word character `a` and `YEAR_RE` starts with
`\b`. -/
theorem year_extraction_counterexample :
    YearOccursAt cexYearText 1 2024
    ∧ (∀ y', ¬ YearOccursAt cexYearText 0 y')
    ∧ yearSearch cexYearText = none := by
  refine ⟨?_, ?_, by decide⟩
  · exact ⟨'2', '4', [' '], "Regular".toList, [' '], "Session".toList, [],
      by decide, by decide, by decide, by decide, by decide,
      ⟨"Regular".toList, by decide, rfl⟩,
      by decide, by decide, rfl, by decide⟩
  · rintro y' ⟨d1, d2, s1, q, s2, ssn, rest, heq, -⟩
    have hc : cexYearText.drop 0 = 'a' :: "2024 Regular Session".toList := by decide
    rw [hc] at heq
    simp only [List.cons.injEq] at heq
    exact absurd heq.1 (by decide)

/-! ## Idempotence under completion order (C4) -/

/-- Every row the loop ever appends carries the `"HB "` prefix. -/
theorem qualRow_shape {u : Str → Str} {f : Str → Option Str} {ys : List Nat}
    {b url : Str} {r : Row} (h : qualRow u f ys b url = some r) :
    ∃ bn, r.bill_number = 'H' :: 'B' :: ' ' :: bn := by
  obtain ⟨text, y, bn, _, _, _, _, _, _, _, rfl⟩ := qualRow_some h
  exact ⟨bn, rfl⟩

/-- For `"HB "`-shaped rows, equal dedup keys force equal sort keys. -/
theorem sortKey_eq_of_rowKey_eq {r1 r2 : Row}
    (h1 : ∃ bn, r1.bill_number = 'H' :: 'B' :: ' ' :: bn)
    (h2 : ∃ bn, r2.bill_number = 'H' :: 'B' :: ' ' :: bn)
    (h : rowKey r1 = rowKey r2) : sortKey r1 = sortKey r2 := by
  obtain ⟨bn1, hb1⟩ := h1
  obtain ⟨bn2, hb2⟩ := h2
  unfold rowKey at h
  rw [Prod.mk.injEq, Prod.mk.injEq] at h
  obtain ⟨-, hy, hdrop⟩ := h
  rw [hb1, hb2] at hdrop
  simp only [List.drop_succ_cons, List.drop_zero] at hdrop
  unfold sortKey
  rw [hy, hb1, hb2, hdrop]

/-- Membership in the accumulated rows of one session's fold, given that
sort keys identify rows among everything in scope. -/
theorem foldFiles_mem {u : Str → Str} {f : Str → Option Str} {ys : List Nat}
    {b : Str} {files : List Str} {st : PState}
    (hA : Aligned st)
    (hSh : ∀ r ∈ st.rows, ∃ bn, r.bill_number = 'H' :: 'B' :: ' ' :: bn)
    (hsep : ∀ r1 ∈ st.rows ++ files.filterMap (qualRow u f ys b),
      ∀ r2 ∈ st.rows ++ files.filterMap (qualRow u f ys b),
      sortKey r1 = sortKey r2 → r1 = r2) :
    ∀ r, r ∈ (files.foldl (processOne u f ys b) st).rows ↔
      r ∈ st.rows ∨ r ∈ files.filterMap (qualRow u f ys b) := by
  induction files generalizing st with
  | nil =>
    intro r
    simp
  | cons url files' ih =>
    intro r
    rw [List.foldl_cons]
    rw [List.filterMap_cons]
    rw [List.filterMap_cons] at hsep
    cases hq : qualRow u f ys b url with
    | none =>
      rw [hq] at hsep
      have hstep : processOne u f ys b st url = st := by
        rw [processOne_char, hq]
      rw [hstep]
      exact ih hA hSh hsep r
    | some r0 =>
      rw [hq] at hsep
      have hr0shape := qualRow_shape hq
      by_cases hc : st.seen.contains (rowKey r0) = true
      · have hstep : processOne u f ys b st url = st := by
          rw [processOne_char, hq]
          simp only
          rw [if_pos hc]
        rw [hstep]
        have hr0mem : r0 ∈ st.rows := by
          obtain ⟨r', hr', hkey⟩ := (hA _).mp ((contains_iff_mem _ _).mp hc)
          have : r' = r0 := hsep r' (List.mem_append.mpr (Or.inl hr')) r0
            (List.mem_append.mpr (Or.inr (List.mem_cons_self _ _)))
            (sortKey_eq_of_rowKey_eq (hSh r' hr') hr0shape hkey)
          rwa [← this]
        have hsub : ∀ x ∈ st.rows ++ files'.filterMap (qualRow u f ys b),
            x ∈ st.rows ++ r0 :: files'.filterMap (qualRow u f ys b) := by
          intro x hx
          rcases List.mem_append.mp hx with hx | hx
          · exact List.mem_append.mpr (Or.inl hx)
          · exact List.mem_append.mpr (Or.inr (List.mem_cons_of_mem _ hx))
        rw [ih hA hSh (fun x hx y hy => hsep x (hsub x hx) y (hsub y hy)) r]
        constructor
        · rintro (h | h)
          · exact Or.inl h
          · exact Or.inr (List.mem_cons_of_mem _ h)
        · rintro (h | h)
          · exact Or.inl h
          · rcases List.mem_cons.mp h with rfl | h
            · exact Or.inl hr0mem
            · exact Or.inr h
      · have hstep : processOne u f ys b st url =
            ⟨rowKey r0 :: st.seen, st.rows ++ [r0]⟩ := by
          rw [processOne_char, hq]
          simp only
          rw [if_neg hc]
        rw [hstep]
        have hA' : Aligned ⟨rowKey r0 :: st.seen, st.rows ++ [r0]⟩ := by
          have := @processOne_aligned u f ys b st url hA
          rwa [hstep] at this
        have hSh' : ∀ x ∈ (st.rows ++ [r0]), ∃ bn, x.bill_number = 'H' :: 'B' :: ' ' :: bn := by
          intro x hx
          rcases List.mem_append.mp hx with hx | hx
          · exact hSh x hx
          · rw [List.mem_singleton] at hx
            subst hx
            exact hr0shape
        have hsub : ∀ x ∈ (st.rows ++ [r0]) ++ files'.filterMap (qualRow u f ys b),
            x ∈ st.rows ++ r0 :: files'.filterMap (qualRow u f ys b) := by
          intro x hx
          rcases List.mem_append.mp hx with hx | hx
          · rcases List.mem_append.mp hx with hx | hx
            · exact List.mem_append.mpr (Or.inl hx)
            · rw [List.mem_singleton] at hx
              subst hx
              exact List.mem_append.mpr (Or.inr (List.mem_cons_self _ _))
          · exact List.mem_append.mpr (Or.inr (List.mem_cons_of_mem _ hx))
        rw [ih hA' hSh' (fun x hx y hy => hsep x (hsub x hx) y (hsub y hy)) r]
        constructor
        · rintro (h | h)
          · rcases List.mem_append.mp h with h | h
            · exact Or.inl h
            · rw [List.mem_singleton] at h
              subst h
              exact Or.inr (List.mem_cons_self _ _)
          · exact Or.inr (List.mem_cons_of_mem _ h)
        · rintro (h | h)
          · exact Or.inl (List.mem_append.mpr (Or.inl h))
          · rcases List.mem_cons.mp h with rfl | h
            · exact Or.inl (List.mem_append.mpr (Or.inr (List.mem_singleton.mpr rfl)))
            · exact Or.inr h

/-- Membership in the accumulated rows across sessions. -/
theorem foldSessions_mem {u : Str → Str} {f : Str → Option Str} {ys : List Nat}
    {sessions : List (Str × Except Unit (List Str))} {st : PState}
    (hA : Aligned st)
    (hSh : ∀ r ∈ st.rows, ∃ bn, r.bill_number = 'H' :: 'B' :: ' ' :: bn)
    (hsep : ∀ r1 ∈ st.rows ++ allQualRows u f ys sessions,
      ∀ r2 ∈ st.rows ++ allQualRows u f ys sessions,
      sortKey r1 = sortKey r2 → r1 = r2) :
    ∀ r, r ∈ (sessions.foldl (processSession u f ys) st).rows ↔
      r ∈ st.rows ∨ r ∈ allQualRows u f ys sessions := by
  induction sessions generalizing st with
  | nil =>
    intro r
    simp [allQualRows]
  | cons s ss ih =>
    obtain ⟨b, listing⟩ := s
    cases listing with
    | error e =>
      have h2 : allQualRows u f ys ((b, Except.error e) :: ss) =
          allQualRows u f ys ss := by
        simp [allQualRows]
      rw [h2] at hsep
      intro r
      rw [List.foldl_cons, show processSession u f ys st (b, Except.error e) = st
        from rfl, h2]
      exact ih hA hSh hsep r
    | ok files =>
      have h2 : allQualRows u f ys ((b, Except.ok files) :: ss) =
          files.filterMap (qualRow u f ys b) ++ allQualRows u f ys ss := by
        simp [allQualRows]
      rw [h2] at hsep
      have hsub1 : ∀ x ∈ st.rows ++ files.filterMap (qualRow u f ys b),
          x ∈ st.rows ++ (files.filterMap (qualRow u f ys b) ++ allQualRows u f ys ss) := by
        intro x hx
        rcases List.mem_append.mp hx with h | h <;>
          simp [List.mem_append, h]
      have hsep1 : ∀ r1 ∈ st.rows ++ files.filterMap (qualRow u f ys b),
          ∀ r2 ∈ st.rows ++ files.filterMap (qualRow u f ys b),
          sortKey r1 = sortKey r2 → r1 = r2 :=
        fun r1 h1' r2 h2' => hsep r1 (hsub1 r1 h1') r2 (hsub1 r2 h2')
      have hmemmid := foldFiles_mem hA hSh hsep1
      have hAmid : Aligned (files.foldl (processOne u f ys b) st) :=
        @processSession_aligned u f ys st (b, Except.ok files) hA
      have hShmid : ∀ r ∈ (files.foldl (processOne u f ys b) st).rows,
          ∃ bn, r.bill_number = 'H' :: 'B' :: ' ' :: bn := by
        intro r hr
        rcases (hmemmid r).mp hr with h | h
        · exact hSh r h
        · obtain ⟨url, -, hq⟩ := List.mem_filterMap.mp h
          exact qualRow_shape hq
      have hsub2 : ∀ x ∈ (files.foldl (processOne u f ys b) st).rows ++
            allQualRows u f ys ss,
          x ∈ st.rows ++ (files.filterMap (qualRow u f ys b) ++ allQualRows u f ys ss) := by
        intro x hx
        rcases List.mem_append.mp hx with h | h
        · rcases (hmemmid x).mp h with h | h <;> simp [List.mem_append, h]
        · simp [List.mem_append, h]
      have hsep2 : ∀ r1 ∈ (files.foldl (processOne u f ys b) st).rows ++
            allQualRows u f ys ss,
          ∀ r2 ∈ (files.foldl (processOne u f ys b) st).rows ++
            allQualRows u f ys ss,
          sortKey r1 = sortKey r2 → r1 = r2 :=
        fun r1 h1' r2 h2' => hsep r1 (hsub2 r1 h1') r2 (hsub2 r2 h2')
      intro r
      rw [List.foldl_cons, show processSession u f ys st (b, Except.ok files) =
        files.foldl (processOne u f ys b) st from rfl]
      rw [ih hAmid hShmid hsep2 r, hmemmid r, h2]
      simp [List.mem_append, List.mem_filterMap, or_assoc]

/-- The qualifying rows on offer are invariant under per-session
permutations of the completion order. -/
theorem allQualRows_mem_iff {u : Str → Str} {f : Str → Option Str} {ys : List Nat}
    {s1 s2 : List (Str × Except Unit (List Str))}
    (hrel : List.Forall₂ SessionRel s1 s2) (r : Row) :
    r ∈ allQualRows u f ys s1 ↔ r ∈ allQualRows u f ys s2 := by
  induction hrel with
  | nil => exact Iff.rfl
  | @cons a b l1 l2 hab hrest ih =>
    obtain ⟨ba, la⟩ := a
    obtain ⟨bb, lb⟩ := b
    obtain ⟨hb, hlist⟩ := hab
    simp only at hb
    subst hb
    cases la <;> cases lb <;> simp only [SessionRel] at hlist
    · simpa [allQualRows] using ih
    · rename_i files1 files2
      simp only [allQualRows, List.flatMap_cons] at ih ⊢
      rw [List.mem_append, List.mem_append]
      simp only [List.mem_filterMap]
      constructor
      · rintro (⟨url, hurl, hq⟩ | h)
        · exact Or.inl ⟨url, hlist.mem_iff.mp hurl, hq⟩
        · exact Or.inr (ih.mp h)
      · rintro (⟨url, hurl, hq⟩ | h)
        · exact Or.inl ⟨url, hlist.mem_iff.mpr hurl, hq⟩
        · exact Or.inr (ih.mpr h)

theorem rowLT_of_rowLe_ne {r1 r2 : Row} (hle : RowLE r1 r2)
    (hne : sortKey r1 ≠ sortKey r2) : RowLT r1 r2 := by
  have h := (rowLe_iff r1 r2).mp hle
  show r1.year < r2.year ∨ (r1.year = r2.year ∧
    digitsToNat (r1.bill_number.filter isDigitChar) <
      digitsToNat (r2.bill_number.filter isDigitChar))
  rcases h with h | ⟨hy, hd⟩
  · exact Or.inl h
  · refine Or.inr ⟨hy, ?_⟩
    rcases Nat.lt_or_ge (digitsToNat (r1.bill_number.filter isDigitChar))
      (digitsToNat (r2.bill_number.filter isDigitChar)) with hlt | hge
    · exact hlt
    · exact absurd (by unfold sortKey; rw [hy, Nat.le_antisymm hd hge]) hne

instance : IsAntisymm Row RowLT where
  antisymm r1 r2 h1 h2 := by
    exfalso
    unfold RowLT keyLt at h1 h2
    omega

/-- Stable sorting two permuted row lists with pairwise-distinct sort keys
gives the same output. -/
theorem sortRows_eq_of_perm {l1 l2 : List Row} (hp : l1.Perm l2)
    (hnd : l1.Pairwise (fun r r' => sortKey r ≠ sortKey r')) :
    sortRows l1 = sortRows l2 := by
  have hsymm : ∀ {x y : Row}, sortKey x ≠ sortKey y → sortKey y ≠ sortKey x :=
    fun h h' => h h'.symm
  have hs1 : List.Sorted RowLE (sortRows l1) := List.sorted_insertionSort RowLE l1
  have hs2 : List.Sorted RowLE (sortRows l2) := List.sorted_insertionSort RowLE l2
  have hp1 : (sortRows l1).Perm l1 := List.perm_insertionSort RowLE l1
  have hp2 : (sortRows l2).Perm l2 := List.perm_insertionSort RowLE l2
  have hperm : (sortRows l1).Perm (sortRows l2) :=
    (hp1.trans hp).trans hp2.symm
  have hnd1 : (sortRows l1).Pairwise (fun r r' => sortKey r ≠ sortKey r') :=
    (List.Perm.pairwise_iff hsymm hp1).mpr hnd
  have hnd2 : (sortRows l2).Pairwise (fun r r' => sortKey r ≠ sortKey r') :=
    (List.Perm.pairwise_iff hsymm hp2).mpr
      ((List.Perm.pairwise_iff hsymm hp).mp hnd)
  have hlt1 : List.Sorted RowLT (sortRows l1) :=
    (hs1.and hnd1).imp fun h => rowLT_of_rowLe_ne h.1 h.2
  have hlt2 : List.Sorted RowLT (sortRows l2) :=
    (hs2.and hnd2).imp fun h => rowLT_of_rowLe_ne h.1 h.2
  exact List.eq_of_perm_of_sorted hperm hlt1 hlt2

/-- C4 (amended): for a fixed content assignment, the written report is
independent of the order in which the concurrent extractions completed,
provided no two qualifying records produce distinct report rows with the
same `(year, numeric bill number)` sort key; otherwise (two documents
sharing a dedup key, or identifier strings that differ only in leading
zeros) the surviving representative or the relative order can depend on
completion order. -/
theorem idempotence_amended (u : Str → Str) (f : Str → Option Str) (ys : List Nat)
    (s1 s2 : List (Str × Except Unit (List Str)))
    (hrel : List.Forall₂ SessionRel s1 s2)
    (hsep : ∀ r1 ∈ allQualRows u f ys s1, ∀ r2 ∈ allQualRows u f ys s1,
      sortKey r1 = sortKey r2 → r1 = r2) :
    mainRows u f ys s1 = mainRows u f ys s2 := by
  have hsep2 : ∀ r1 ∈ allQualRows u f ys s2, ∀ r2 ∈ allQualRows u f ys s2,
      sortKey r1 = sortKey r2 → r1 = r2 :=
    fun r1 h1 r2 h2 => hsep r1 ((allQualRows_mem_iff hrel r1).mpr h1) r2
      ((allQualRows_mem_iff hrel r2).mpr h2)
  have hshape0 : ∀ r ∈ (⟨[], []⟩ : PState).rows,
      ∃ bn, r.bill_number = 'H' :: 'B' :: ' ' :: bn := by
    intro r h
    cases h
  have hmem1 : ∀ r, r ∈ (s1.foldl (processSession u f ys) ⟨[], []⟩).rows ↔
      r ∈ allQualRows u f ys s1 := by
    intro r
    rw [foldSessions_mem aligned_init hshape0 (by simpa using hsep) r]
    simp
  have hmem2 : ∀ r, r ∈ (s2.foldl (processSession u f ys) ⟨[], []⟩).rows ↔
      r ∈ allQualRows u f ys s2 := by
    intro r
    rw [foldSessions_mem aligned_init hshape0 (by simpa using hsep2) r]
    simp
  have hnd : ∀ (s : List (Str × Except Unit (List Str)))
      (hm : ∀ r, r ∈ (s.foldl (processSession u f ys) ⟨[], []⟩).rows ↔
        r ∈ allQualRows u f ys s)
      (hsp : ∀ r1 ∈ allQualRows u f ys s, ∀ r2 ∈ allQualRows u f ys s,
        sortKey r1 = sortKey r2 → r1 = r2),
      (s.foldl (processSession u f ys) ⟨[], []⟩).rows.Pairwise
        (fun r r' => sortKey r ≠ sortKey r') := by
    intro s hm hsp
    have hkeys : (s.foldl (processSession u f ys) ⟨[], []⟩).rows.Pairwise
        (fun r r' => rowKey r ≠ rowKey r') :=
      foldSessions_pairwiseKeys aligned_init List.Pairwise.nil
    refine List.Pairwise.imp_of_mem ?_ hkeys
    intro a c ha hc hkne hseq
    exact hkne (by rw [hsp a ((hm a).mp ha) c ((hm c).mp hc) hseq])
  have hnd1 := hnd s1 hmem1 hsep
  have hnd2 := hnd s2 hmem2 hsep2
  have hnodup1 : (s1.foldl (processSession u f ys) ⟨[], []⟩).rows.Nodup :=
    hnd1.imp fun h he => h (by rw [he])
  have hnodup2 : (s2.foldl (processSession u f ys) ⟨[], []⟩).rows.Nodup :=
    hnd2.imp fun h he => h (by rw [he])
  have hperm : (s1.foldl (processSession u f ys) ⟨[], []⟩).rows.Perm
      (s2.foldl (processSession u f ys) ⟨[], []⟩).rows :=
    (List.perm_ext_iff_of_nodup hnodup1 hnodup2).mpr fun r => by
      rw [hmem1 r, hmem2 r]
      exact allQualRows_mem_iff hrel r
  exact sortRows_eq_of_perm hperm hnd1

/-- C4 counterexample to order-independence: with identical document
content, reversing the completion order changes the written file.  First
scenario: two URLs share the dedup key `(B, 2024, "123")`, so the surviving
row's `bill_text_url` is whichever completed first.  Second scenario:
identifiers `"123"` and `"0123"` give distinct dedup keys but the same
numeric sort key, so the stable sort keeps them in completion order. -/
theorem idempotence_counterexample :
    mainRows id fetchD [2024]
        [("B".toList, .ok ["/123.htm".toList, "x/123.htm".toList])] ≠
      mainRows id fetchD [2024]
        [("B".toList, .ok ["x/123.htm".toList, "/123.htm".toList])]
    ∧ mainRows id fetchE [2024] [("B".toList, .ok ["u3".toList, "u4".toList])] ≠
        mainRows id fetchE [2024] [("B".toList, .ok ["u4".toList, "u3".toList])] :=
  ⟨by decide, by decide⟩

/-! ## Witness instantiations -/

theorem idempotence_amended_witness :
    mainRows id fetchJ [2024] [("B".toList, .ok ["j1".toList, "j2".toList])] =
      mainRows id fetchJ [2024] [("B".toList, .ok ["j2".toList, "j1".toList])] :=
  idempotence_amended id fetchJ [2024] _ _
    (List.Forall₂.cons ⟨rfl, List.Perm.swap "j2".toList "j1".toList []⟩
      List.Forall₂.nil)
    (by decide)

theorem dedup_invariant_witness :
    (mainRows id fetchA [2024] sessA).Pairwise
      (fun r r' => ¬(r.biennium = r'.biennium ∧ r.year = r'.year ∧
        r.bill_number = r'.bill_number))
    ∧ processOne id fetchA [2024] "23-24".toList ⟨[], []⟩ "/123.htm".toList =
        ⟨[("23-24".toList, 2024, "123".toList)],
         [mkRow "23-24".toList "/123.htm".toList 2024 "123".toList none]⟩ := by
  refine ⟨(dedup_invariant id fetchA [2024] sessA).1, ?_⟩
  have h := ((dedup_invariant id fetchA [2024] sessA).2 ⟨[], []⟩ "23-24".toList
    "/123.htm".toList (mkRow "23-24".toList "/123.htm".toList 2024 "123".toList none)
    (by decide)).2 (by decide)
  exact h.trans (by decide)

theorem filter_invariant_witness :
    ((mkRow "23-24".toList "/123.htm".toList 2024 "123".toList none).year ∈ [2024] ∧
      ∃ text, fetchA (mkRow "23-24".toList "/123.htm".toList 2024 "123".toList
        none).bill_text_url = some text ∧ keywordMatched text = true)
    ∧ processOne id fetchA [2024] "23-24".toList ⟨[], []⟩ "/nope.htm".toList =
        ⟨[], []⟩ :=
  ⟨(filter_invariant id fetchA [2024] sessA).1 _ (by decide),
   (filter_invariant id fetchA [2024] sessA).2 "23-24".toList "/nope.htm".toList
     ⟨[], []⟩ (by decide)⟩

theorem summary_nonempty_witness :
    (mkRow "23-24".toList "/123.htm".toList 2024 "123".toList none).bill_summary_url
      ≠ [] :=
  summary_nonempty id fetchA [2024] sessA _ (by decide)

theorem fallback_five_digits_witness :
    fnameSearch ("http://x".toList ++ '/' :: ("12345".toList ++ ".htm".toList)) =
      some ("12345".toList.take 4) :=
  fallback_five_digits "http://x".toList "12345".toList (by decide) (by decide)

theorem fallback_invariant_witness :
    (parse_bill_page id
      ("http://x".toList ++ '/' :: ("1181".toList ++ "-S".toList ++ ".htm".toList))
      docA).bill_number = some "1181".toList
    ∧ (parse_bill_page id "nohtm".toList docA).bill_number = none := by
  constructor
  · exact (fallback_invariant id).1 docA "http://x".toList "1181".toList "-S".toList
      (by decide) (by decide) (Or.inr (by decide)) (Or.inr ⟨"S".toList, by decide⟩)
      (by decide)
  · exact (fallback_invariant id).2 docA "nohtm".toList (by decide) (by decide)

theorem summary_url_spec_witness :
    bill_summary_url (some "123".toList) (some 2024) =
      some "https://app.leg.wa.gov/BillSummary/?BillNumber=123&Year=2024&Initiative=false".toList
    ∧ bill_summary_url (some "123".toList) (some 0) = none
    ∧ (mkRow "23-24".toList "/123.htm".toList 2024 "123".toList none).bill_summary_url =
        "https://app.leg.wa.gov/BillSummary/?BillNumber=123&Year=2024&Initiative=false".toList := by
  refine ⟨?_, ?_, ?_⟩
  · exact ((summary_url_spec id fetchA [2024] sessA).1 "123".toList 2024 (by decide)
      (by decide)).trans (by decide)
  · exact ((summary_url_spec id fetchA [2024] sessA).2.1 (some "123".toList) (some 0)
      (Or.inr (by decide))).1
  · exact ((summary_url_spec id fetchA [2024] sessA).2.2 _ (by decide)).trans (by decide)

end BillFinder
